import Mathlib

/-!
Shallow embedding of `drumming.py` (classes `Note`, `Pattern`, `PatternGenerator`,
`SynthVelocities`, `Midi`, `MidiSynthesizer`), together with theorems checking the
specification's claims about it.  Python exceptions are modelled by the `PyErr`
type and `Except`; machine integers are `Int`/`Nat` (no overflow is reachable);
Python's lazy generators are modelled by the finite lists they produce, plus an
explicit consumed-prefix cursor for the stateful iterator stored by
`PatternGenerator`.
-/

namespace Drumming

/-- Exceptions the embedded code can raise.  `keyErrorChar`/`keyErrorNat` model
Python `KeyError` (a `LookupError` subclass) carrying the missing key;
`typeError` models `TypeError`; `stopIteration` models `StopIteration`;
`runtimeError` models the `RuntimeError` that PEP 479 raises when a
`StopIteration` escapes inside a generator body. -/
inductive PyErr where
  | keyErrorChar (c : Char)
  | keyErrorNat (n : Nat)
  | typeError
  | stopIteration
  | runtimeError
deriving DecidableEq

deriving instance DecidableEq for Except

/-- Python `LookupError` hierarchy: `KeyError` (and `IndexError`) are its
subclasses. -/
def PyErr.isLookupError : PyErr → Bool
  | .keyErrorChar _ => true
  | .keyErrorNat _ => true
  | _ => false

/-- The spec's section-7 error taxonomy has a single out-of-range kind, named
the IndexError/StopIteration class: "out-of-range index or slice beyond the
space's count; also raised naturally when iteration is exhausted".  The code
under `src/` only ever raises `StopIteration` for this kind. -/
def PyErr.isIndexErrorClass : PyErr → Bool
  | .stopIteration => true
  | _ => false

/-- `Note.representations = "·–"`, the default alphabet. -/
def defaultReps : List Char := ['·', '–']

/-- A `Note` stores the duration (`self.length`) and the symbol computed at
construction time (`self.symbol`).  The `_representations` field is write-only
in the source (never read back), so it is not modelled. -/
structure Note where
  length : Nat
  symbol : Char
deriving DecidableEq

/-- `Note.decode_mapping(reps)[len]`: the dict `{1: reps[0], 2: reps[1], ...}`
built by `enumerate(representations, start=1)`; lookup of a key outside
`1..len(reps)` is a `KeyError`, modelled by `none`. -/
def decodeMapping (reps : List Char) (len : Nat) : Option Char :=
  if len = 0 then none else reps[len - 1]?

/-- `Note.encode_mapping(reps)[c]`: the dict `{reps[0]: 1, reps[1]: 2, ...}`.
A Python dict comprehension lets later duplicate keys overwrite earlier ones,
so the stored value for `c` is `i + 1` for the greatest index `i` with
`reps[i] = c`. -/
def encodeMapping (reps : List Char) (c : Char) : Option Nat :=
  match (reps.enum.filter fun p => p.2 == c).getLast? with
  | some p => some (p.1 + 1)
  | none => none

/-- `Note.__init__`: `self.length = length; self.symbol = decode_mapping(reps)[length]`.
The dict lookup raises `KeyError(length)` when the duration is not a key. -/
def Note.make (len : Nat) (reps : List Char) : Except PyErr Note :=
  match decodeMapping reps len with
  | some s => .ok ⟨len, s⟩
  | none => .error (.keyErrorNat len)

/-- `Note(1)` under the default alphabet (`decode_mapping("·–")[1] = '·'`). -/
def Note.one : Note := ⟨1, '·'⟩

/-- `Note(2)` under the default alphabet (`decode_mapping("·–")[2] = '–'`). -/
def Note.two : Note := ⟨2, '–'⟩

/-- `Note.from_string(c, representations, display_default)`:
`cls(encode_mapping(representations)[c], representations=cls.representations
if display_default else representations)`.  Passing `representations=None`
makes `encode_mapping` call `enumerate(None)`, a `TypeError`. -/
def Note.fromString (c : Char) (reps : Option (List Char)) (displayDefault : Bool) :
    Except PyErr Note :=
  match reps with
  | none => .error .typeError
  | some rs =>
    match encodeMapping rs c with
    | none => .error (.keyErrorChar c)
    | some len => Note.make len (if displayDefault then defaultReps else rs)

/-- `Pattern.__init__` stores `list(notes)`.  The `separator` defaults to `""`
and only affects `__str__`; every `Pattern` the claims mention uses the
default, so the separator is not modelled. -/
structure Pattern where
  notes : List Note
deriving DecidableEq

/-- `Pattern.__str__` with the default empty separator: the concatenation of
each note's one-character symbol. -/
def Pattern.str (p : Pattern) : String := String.mk (p.notes.map fun u => u.symbol)

/-- The sequence of durations of a pattern's notes (the underlying structure
the spec's equality is defined on). -/
def Pattern.durations (p : Pattern) : List Nat := p.notes.map fun u => u.length

/-- Left-to-right consumption of a character stream by `list(...)`: each
character is mapped, and the first exception raised propagates (later
characters are never reached). -/
def mapNotes (f : Char → Except PyErr Note) : List Char → Except PyErr (List Note)
  | [] => .ok []
  | c :: cs =>
    match f c with
    | .error e => .error e
    | .ok v =>
      match mapNotes f cs with
      | .error e => .error e
      | .ok vs => .ok (v :: vs)

/-- `Pattern.from_string(pattern_string, representations, display_default)`:
builds `Note.from_string` of each character, consumed left to right by
`list(...)` in `Pattern.__init__`; the first exception raised propagates. -/
def Pattern.fromString (s : String) (reps : Option (List Char)) (displayDefault : Bool) :
    Except PyErr Pattern :=
  match mapNotes (fun c => Note.fromString c reps displayDefault) s.data with
  | .error e => .error e
  | .ok notes => .ok ⟨notes⟩

/-- `Pattern.__add__` with a `Pattern` argument:
`Pattern(it.chain(self.notes, other.notes))`, i.e. the concatenation. -/
def Pattern.addP (p q : Pattern) : Pattern := ⟨p.notes ++ q.notes⟩

/-- `Pattern.__add__` with a `Note` argument: `Pattern(it.chain(self.notes, other))`.
`Pattern.__init__` runs `list(...)` on the chain; after exhausting `self.notes`
the chain calls `iter(other)`, and a `Note` object defines no `__iter__` or
`__getitem__`, so the call raises `TypeError` ("'Note' object is not iterable"). -/
def Pattern.addNote (p : Pattern) (u : Note) : Except PyErr Pattern :=
  .error .typeError

/-- `itertools.combinations(l, k)` restricted to the shape the source uses
(lists of positions): all length-`k` subsequences of `l`, emitted in the
documented lexicographic order (those containing the first element first).
The pool is the first argument so the recursion is structural. -/
def combinations : List Nat → Nat → List (List Nat)
  | _, 0 => [[]]
  | [], _ + 1 => []
  | x :: xs, k + 1 => ((combinations xs k).map fun pos => x :: pos) ++ combinations xs (k + 1)

/-- Body of `PatternGenerator._generate_pattern`'s loop:
`notes = [Note(1)] * n_notes; for position in positions: notes[position] = Note(2)`.
The positions are distinct and `< n`, so the result holds `Note(2)` exactly at
the chosen positions and `Note(1)` elsewhere. -/
def mkNotes (n : Nat) (positions : List Nat) : List Note :=
  (List.range n).map fun i => if i ∈ positions then Note.two else Note.one

/-- `PatternGenerator._generate_pattern((singles, doubles))`: one pattern per
`positions in it.combinations(range(singles + doubles), doubles)`. -/
def generatePattern (singles doubles : Nat) : List Pattern :=
  (combinations (List.range (singles + doubles)) doubles).map fun pos =>
    ⟨mkNotes (singles + doubles) pos⟩

/-- Python `range(n, -1, -2)`: counts down from `n` in steps of 2 while the
value stays above the stop `-1`; empty when `n < 0`, and otherwise has
`n / 2 + 1` elements `n, n - 2, ...` (all nonnegative). -/
def pyRangeDown2 (n : Int) : List Int :=
  if n < 0 then [] else (List.range (n.toNat / 2 + 1)).map fun k : Nat => n - 2 * (k : Int)

/-- `PatternGenerator._note_counts`:
`for n_doubles, n_singles in enumerate(range(self.pattern_length, -1, -2)):
yield n_singles, n_doubles`. -/
def noteCounts (n : Int) : List (Int × Nat) :=
  (pyRangeDown2 n).enum.map fun p => (p.2, p.1)

/-- `PatternGenerator._all_patterns`: `it.chain.from_iterable` of
`_generate_pattern(counts) for counts in _note_counts()`, as the list of
patterns the lazy chain produces.  The singles count is an element of
`range(n, -1, -2)` and hence nonnegative, so `toNat` is exact. -/
def allPatterns (n : Int) : List Pattern :=
  ((noteCounts n).map fun sd => generatePattern sd.1.toNat sd.2).flatten

/-- The same enumeration with the index bookkeeping unfolded (proved equal to
`allPatterns` for nonnegative lengths in `allPatterns_natCast`). -/
def allPatternsNat (N : Nat) : List Pattern :=
  ((List.range (N / 2 + 1)).map fun d => generatePattern (N - 2 * d) d).flatten

/-- State of a `PatternGenerator` object: the constructor argument
`pattern_length` and the number of patterns the stored lazy iterator
`self.patterns` has already produced (0 for a freshly built chain). -/
structure GenState where
  patternLength : Int
  cursor : Nat
deriving DecidableEq

/-- `PatternGenerator.__init__(pattern_length)`: stores the length and builds
the lazy chain without consuming it.  No argument validation occurs for any
input, and the class defines no `DomainError`. -/
def GenState.init (n : Int) : GenState := ⟨n, 0⟩

/-- `PatternGenerator.__getitem__` with an `int` index:
`next(it.islice(self.patterns, index, index + 1))`.  `islice` draws from the
stored iterator, so it consumes `index + 1` further patterns when that many
remain (returning the last one drawn), and otherwise exhausts the iterator and
`next` raises `StopIteration`. -/
def GenState.getItem (st : GenState) (i : Nat) : Except PyErr Pattern × GenState :=
  match ((allPatterns st.patternLength).drop st.cursor)[i]? with
  | some p => (.ok p, ⟨st.patternLength, st.cursor + i + 1⟩)
  | none =>
    (.error .stopIteration,
      ⟨st.patternLength, st.cursor + ((allPatterns st.patternLength).length - st.cursor)⟩)

/-- `PatternGenerator.reset`: `self.patterns = self._all_patterns()`, a fresh
unconsumed chain. -/
def GenState.reset (st : GenState) : GenState := ⟨st.patternLength, 0⟩

/-- `SynthVelocities` dataclass. -/
structure SynthVelocities where
  accent : Int
  normal : Int
  soft : Int
deriving DecidableEq

/-- Default `SynthVelocities(accent=127, normal=100, soft=50)`. -/
def defaultVelocities : SynthVelocities := ⟨127, 100, 50⟩

/-- `Midi` dataclass: voice, note number and velocity of one event. -/
structure Midi where
  voice : Int
  noteNumber : Int
  velocity : Int
deriving DecidableEq

/-- `MidiSynthesizer.__init__` configuration. -/
structure MidiSynthesizer where
  noteNumber : Int
  velocities : SynthVelocities
  voice : Int
deriving DecidableEq

/-- `MidiSynthesizer()` with all defaults. -/
def defaultSynth : MidiSynthesizer := ⟨60, defaultVelocities, 0⟩

/-- `MidiSynthesizer.play_note(note, follows_double)`: a single note yields one
event (accent velocity when following a double, else normal), a double note
yields two events (normal then soft).  A note that is neither single nor
double matches no branch and the generator yields nothing. -/
def playNote (s : MidiSynthesizer) (note : Note) (followsDouble : Bool) : List Midi :=
  if note.length = 1 then
    [⟨s.voice, s.noteNumber, if followsDouble then s.velocities.accent else s.velocities.normal⟩]
  else if note.length = 2 then
    [⟨s.voice, s.noteNumber, s.velocities.normal⟩, ⟨s.voice, s.noteNumber, s.velocities.soft⟩]
  else []

/-- `MidiSynthesizer.play_pattern(pattern)`: `it.tee` duplicates the note
stream; `next(pattern_curr)` pops the first note, so `zip(pattern_prev,
pattern_curr)` pairs each remaining note with its predecessor.  On an empty
pattern `next` raises `StopIteration` inside the generator body, which PEP 479
converts to `RuntimeError` when the caller first iterates the result. -/
def playPattern (s : MidiSynthesizer) (p : Pattern) : Except PyErr (List Midi) :=
  match p.notes with
  | [] => .error .runtimeError
  | n0 :: rest =>
    .ok (playNote s n0 false ++
      ((n0 :: rest).zip rest).flatMap fun pc => playNote s pc.2 (decide (pc.1.length = 2)))

/-- Modelled from the spec, section 4.4 (for comparison with `playPattern`):
the stateful left-to-right rule with `follows_long` threaded through — a short
unit emits one event with velocity `accent` if `follows_long` else `normal`, a
long unit emits `normal` then `soft`, and `follows_long` becomes whether this
unit was long. -/
def mapperSpec (s : MidiSynthesizer) : List Note → Bool → List Midi
  | [], _ => []
  | u :: rest, followsLong =>
    (if u.length = 1 then
      [⟨s.voice, s.noteNumber, if followsLong then s.velocities.accent else s.velocities.normal⟩]
     else if u.length = 2 then
      [⟨s.voice, s.noteNumber, s.velocities.normal⟩, ⟨s.voice, s.noteNumber, s.velocities.soft⟩]
     else []) ++ mapperSpec s rest (decide (u.length = 2))

/-- All compositions of `n` into parts 1 and 2, by the textbook recurrence
(a composition of `n + 2` starts with a 1 or with a 2).  Used as a counting
yardstick for the enumerator. -/
def comps : Nat → List (List Nat)
  | 0 => [[]]
  | 1 => [[1]]
  | n + 2 => ((comps (n + 1)).map fun l => 1 :: l) ++ ((comps n).map fun l => 2 :: l)

/-- The positions (0-based) of the duration-2 entries of a duration list. -/
def twoPositions : List Nat → List Nat
  | [] => []
  | a :: l => if a = 2 then 0 :: (twoPositions l).map (· + 1) else (twoPositions l).map (· + 1)

/-- The duration list with 2 at the given positions and 1 elsewhere (the
duration image of `mkNotes`). -/
def mask (n : Nat) (positions : List Nat) : List Nat :=
  (List.range n).map fun i => if i ∈ positions then 2 else 1

/-! ## Theorems -/

/-- C5: the spec says mapping an empty `Pattern` yields an empty event
sequence with no error; the code instead evaluates `next(pattern_curr)` on an
empty stream inside the `play_pattern` generator, so the first iteration of
the result raises `RuntimeError` (PEP 479).  This theorem evaluates the
embedded code at the failing input. -/
theorem c5_empty_pattern_raises :
    playPattern defaultSynth ⟨[]⟩ = .error .runtimeError := rfl

/-- C9: `Pattern + Pattern` concatenates the note sequences (and, being pure,
modifies neither operand), but `Pattern + Note` crashes: `__add__` chains
`self.notes` with the `Note` itself instead of a singleton, and a `Note` is
not iterable, so building the result raises `TypeError`.  The claim's
`Pattern + NoteUnit` case is the intent and the code a slip. -/
theorem c9_concat_behavior :
    (∀ p q : Pattern, (Pattern.addP p q).notes = p.notes ++ q.notes) ∧
    Pattern.addNote ⟨[Note.one]⟩ Note.two = .error .typeError :=
  ⟨fun _ _ => rfl, rfl⟩

/-- C7 (counterexample): constructing a `PatternGenerator` with the negative
length -1 does not fail — the source has no `DomainError` and `__init__`
validates nothing; `range(-1, -1, -2)` is simply empty, so the object is
built with an empty enumeration and indexing it raises `StopIteration`. -/
theorem c7_counterexample :
    allPatterns (-1) = [] ∧
    (GenState.getItem (GenState.init (-1)) 0).1 = .error .stopIteration := by
  decide

/-- C7 (amended): `PatternGenerator(0)` yields exactly one pattern, the empty
sequence of notes; constructing with a negative target length raises no error
and yields an empty enumeration. -/
theorem c7_amended :
    allPatterns 0 = [⟨[]⟩] ∧ ∀ n : Int, n < 0 → allPatterns n = [] := by
  refine ⟨by decide, fun n hn => ?_⟩
  simp [allPatterns, noteCounts, pyRangeDown2, if_pos hn]

/-- C7 (witness): the amended claim at the concrete negative length -2. -/
theorem c7_witness : allPatterns (-2) = [] := c7_amended.2 (-2) (by decide)

/-- C2 (counterexample): for N = 3 the enumeration renders (under the default
alphabet) as `["···", "–·", "·–"]`, not the claimed `["···", "·–", "–·"]`:
within the one-long group, `itertools.combinations` emits position set {0}
(pattern "–·") before {1} (pattern "·–"). -/
theorem c2_counterexample :
    (allPatterns 3).map Pattern.str ≠ ["···", "·–", "–·"] := by decide

/-- C4 (counterexample): with the two-character alphabet "xx" (both symbols
equal) the round trip changes the pattern: `Note(1, "xx")` renders as "x",
but parsing "x" under "xx" decodes to duration 2, because the encoding dict's
later entry overwrites the earlier one.  So the claim fails for an alphabet
whose two characters coincide. -/
theorem c4_counterexample :
    Note.make 1 ['x', 'x'] = .ok ⟨1, 'x'⟩ ∧
    Pattern.fromString (Pattern.str ⟨[⟨1, 'x'⟩]⟩) (some ['x', 'x']) true = .ok ⟨[⟨2, '–'⟩]⟩ ∧
    Pattern.durations ⟨[⟨2, '–'⟩]⟩ ≠ Pattern.durations ⟨[⟨1, 'x'⟩]⟩ := by
  decide

/-- C8 (counterexample): the error raised at an unrecognized character carries
the character, not its position: parsing "x·" and "·x" under the default
alphabet raises the identical `KeyError('x')` although the offending position
differs (0 versus 1), so the error cannot be reporting the position. -/
theorem c8_counterexample :
    Pattern.fromString (String.mk ['x', '·']) (some defaultReps) true =
      .error (.keyErrorChar 'x') ∧
    Pattern.fromString (String.mk ['·', 'x']) (some defaultReps) true =
      .error (.keyErrorChar 'x') := by
  decide

/-- C6: on a freshly constructed generator, `space[i]` returns the i-th
pattern of the enumeration (0-based) for `i < count`, consuming only the
first `i + 1` patterns of the lazy iterator; for `i ≥ count` it fails with
the spec's IndexError/StopIteration-class error (the code raises
`StopIteration` from `next` on the exhausted slice). -/
theorem c6_getitem (N i : Nat) :
    (i < (allPatterns ↑N).length →
      (GenState.getItem (GenState.init ↑N) i).1 = .ok ((allPatterns ↑N).getD i ⟨[]⟩)) ∧
    ((allPatterns ↑N).length ≤ i →
      (GenState.getItem (GenState.init ↑N) i).1 = .error .stopIteration ∧
      PyErr.isIndexErrorClass .stopIteration = true) := by
  constructor
  · intro h
    unfold GenState.getItem GenState.init
    simp only [List.drop_zero]
    rw [List.getElem?_eq_getElem h]
    simp [List.getD_eq_getElem?_getD, List.getElem?_eq_getElem h]
  · intro h
    unfold GenState.getItem GenState.init
    simp only [List.drop_zero]
    rw [List.getElem?_eq_none h]
    exact ⟨rfl, rfl⟩

/-- C6 (witness): the theorem at the concrete generator of length 3, at an
in-range index and an out-of-range index. -/
theorem c6_witness :
    (GenState.getItem (GenState.init ((3 : Nat) : Int)) 1).1 =
      .ok ((allPatterns ((3 : Nat) : Int)).getD 1 ⟨[]⟩) ∧
    (GenState.getItem (GenState.init ((3 : Nat) : Int)) 5).1 = .error .stopIteration :=
  ⟨(c6_getitem 3 1).1 (by decide), ((c6_getitem 3 5).2 (by decide)).1⟩

/-- C10: integer indexing consumes the generator's shared lazy cursor — from a
fresh generator, `space[i]` leaves the cursor past position i (at
`min (i + 1) count`), a subsequent `space[j]` returns the pattern at absolute
position `i + 1 + j`, `reset()` puts the cursor back to the start, and
`__getitem__` never rewinds the cursor. -/
theorem c10_cursor (n : Int) (i j : Nat) :
    ((GenState.getItem (GenState.init n) i).2.cursor = min (i + 1) (allPatterns n).length) ∧
    (i + 1 + j < (allPatterns n).length →
      (GenState.getItem (GenState.getItem (GenState.init n) i).2 j).1 =
        .ok ((allPatterns n).getD (i + 1 + j) ⟨[]⟩)) ∧
    (∀ st : GenState, (GenState.reset st).cursor = 0) ∧
    (∀ st : GenState, st.cursor ≤ (GenState.getItem st i).2.cursor) := by
  refine ⟨?_, ?_, fun st => rfl, fun st => ?_⟩
  · unfold GenState.getItem GenState.init
    simp only [List.drop_zero]
    rcases hli : (allPatterns n)[i]? with _ | p
    · rw [List.getElem?_eq_none_iff] at hli
      dsimp only
      omega
    · obtain ⟨hlt, -⟩ := List.getElem?_eq_some_iff.mp hli
      dsimp only
      omega
  · intro h
    have hi : i < (allPatterns n).length := by omega
    unfold GenState.getItem GenState.init
    simp only [List.drop_zero, Nat.zero_add]
    rw [List.getElem?_eq_getElem hi]
    simp only [List.getElem?_drop]
    have hij : i + 1 + j < (allPatterns n).length := h
    rw [List.getElem?_eq_getElem hij]
    simp [List.getD_eq_getElem?_getD, List.getElem?_eq_getElem hij]
  · unfold GenState.getItem
    rcases hli : ((allPatterns st.patternLength).drop st.cursor)[i]? with _ | p <;>
      dsimp only <;> omega

/-- C10 (witness): two successive `space[0]` calls on a fresh generator of
length 3 — the second returns the pattern at absolute position 1. -/
theorem c10_witness :
    (GenState.getItem (GenState.getItem (GenState.init 3) 0).2 0).1 =
      .ok ((allPatterns 3).getD (0 + 1 + 0) ⟨[]⟩) :=
  (c10_cursor 3 0 0).2.1 (by decide)

/-- The zip of the teed streams replays exactly the spec's `follows_long`
threading: pairing each note with its predecessor and playing accordingly
equals the stateful left-to-right rule started after the predecessor. -/
theorem playPattern_zip_eq (s : MidiSynthesizer) :
    ∀ (rest : List Note) (prev : Note),
      ((prev :: rest).zip rest).flatMap (fun pc => playNote s pc.2 (decide (pc.1.length = 2))) =
        mapperSpec s rest (decide (prev.length = 2))
  | [], _ => rfl
  | n :: rs, prev => by
    have ih := playPattern_zip_eq s rs n
    simp only [List.zip_cons_cons, List.flatMap_cons]
    rw [ih]
    simp only [mapperSpec, playNote]

/-- C3 (amended): for every nonempty pattern and every velocity configuration,
`play_pattern` yields exactly the events of the spec's rule — a short unit one
event (accent after a long unit, else normal), a long unit two events (normal
then soft), the first unit never treated as following a long unit.  (On the
empty pattern the code raises instead; see the counterexample.) -/
theorem c3_amended (s : MidiSynthesizer) (p : Pattern) (h : p.notes ≠ []) :
    playPattern s p = .ok (mapperSpec s p.notes false) := by
  obtain ⟨notes⟩ := p
  cases notes with
  | nil => exact absurd rfl h
  | cons n0 rest =>
    show Except.ok _ = _
    rw [playPattern_zip_eq s rest n0]
    simp only [mapperSpec, playNote]

/-- C3 (witness): the theorem at the pattern short–long–short with default
velocities; the resulting event velocities are `[100, 100, 50, 127]`. -/
theorem c3_witness :
    playPattern defaultSynth ⟨[Note.one, Note.two, Note.one]⟩ =
      .ok (mapperSpec defaultSynth [Note.one, Note.two, Note.one] false) ∧
    (mapperSpec defaultSynth [Note.one, Note.two, Note.one] false).map Midi.velocity =
      [100, 100, 50, 127] :=
  ⟨c3_amended defaultSynth ⟨[Note.one, Note.two, Note.one]⟩ (by decide), by decide⟩

/-- C3 (counterexample): at the empty pattern the claim fails — the rule
prescribes zero events, but the code's result raises on first iteration
instead of yielding them. -/
theorem c3_counterexample :
    playPattern defaultSynth ⟨[]⟩ ≠ .ok (mapperSpec defaultSynth [] false) := by
  decide

/-- Encoding lookup of the first alphabet character, when the two characters
differ: duration 1. -/
theorem encode_pair_fst (a0 a1 : Char) (hne : a0 ≠ a1) :
    encodeMapping [a0, a1] a0 = some 1 := by
  have h1 : (a1 == a0) = false := beq_eq_false_iff_ne.mpr (Ne.symm hne)
  simp [encodeMapping, List.enum, List.enumFrom, List.filter_cons, h1]

/-- Encoding lookup of the second alphabet character: duration 2 (even when
the two characters coincide, since the dict comprehension keeps the later
entry). -/
theorem encode_pair_snd (a0 a1 : Char) : encodeMapping [a0, a1] a1 = some 2 := by
  by_cases h : a0 = a1
  · subst h
    simp [encodeMapping, List.enum, List.enumFrom, List.filter_cons]
  · have h0 : (a0 == a1) = false := beq_eq_false_iff_ne.mpr h
    simp [encodeMapping, List.enum, List.enumFrom, List.filter_cons, h0]

/-- Encoding lookup of a character that is neither alphabet character fails. -/
theorem encode_pair_none (a0 a1 c : Char) (h0 : c ≠ a0) (h1 : c ≠ a1) :
    encodeMapping [a0, a1] c = none := by
  have e0 : (a0 == c) = false := beq_eq_false_iff_ne.mpr (Ne.symm h0)
  have e1 : (a1 == c) = false := beq_eq_false_iff_ne.mpr (Ne.symm h1)
  simp [encodeMapping, List.enum, List.enumFrom, List.filter_cons, e0, e1]

/-- A note consistent with a two-character alphabet has duration 1 with the
first symbol or duration 2 with the second. -/
theorem note_make_pair (a0 a1 : Char) (u : Note)
    (h : Note.make u.length [a0, a1] = .ok u) :
    (u.length = 1 ∧ u.symbol = a0) ∨ (u.length = 2 ∧ u.symbol = a1) := by
  obtain ⟨len, sym⟩ := u
  rcases len with _ | _ | _ | n <;> simp_all [Note.make, decodeMapping]

/-- Parsing back the rendered symbol of a note consistent with a distinct
two-character alphabet recovers the duration (the parsed note carries the
default alphabet's symbol, per `display_default=True`). -/
theorem note_roundtrip (a0 a1 : Char) (hne : a0 ≠ a1) (u : Note)
    (hu : Note.make u.length [a0, a1] = .ok u) :
    ∃ v : Note, Note.fromString u.symbol (some [a0, a1]) true = .ok v ∧
      v.length = u.length := by
  rcases note_make_pair a0 a1 u hu with ⟨h1, hs⟩ | ⟨h2, hs⟩
  · refine ⟨Note.one, ?_, by simp [Note.one, h1]⟩
    simp [Note.fromString, hs, encode_pair_fst a0 a1 hne, Note.make, decodeMapping,
      defaultReps, Note.one]
  · refine ⟨Note.two, ?_, by simp [Note.two, h2]⟩
    simp [Note.fromString, hs, encode_pair_snd a0 a1, Note.make, decodeMapping,
      defaultReps, Note.two]

/-- List-level round trip: mapping the symbols of alphabet-consistent notes
through `Note.from_string` succeeds and preserves the duration sequence. -/
theorem mapNotes_roundtrip (a0 a1 : Char) (hne : a0 ≠ a1) :
    ∀ notes : List Note, (∀ u ∈ notes, Note.make u.length [a0, a1] = .ok u) →
      ∃ vs : List Note,
        mapNotes (fun c => Note.fromString c (some [a0, a1]) true)
            (notes.map fun u => u.symbol) = .ok vs ∧
        vs.map (fun v => v.length) = notes.map fun u => u.length
  | [], _ => ⟨[], rfl, rfl⟩
  | u :: us, h => by
    obtain ⟨v, hv, hvlen⟩ := note_roundtrip a0 a1 hne u (h u (List.mem_cons_self u us))
    obtain ⟨vs, hvs, hlen⟩ :=
      mapNotes_roundtrip a0 a1 hne us fun w hw => h w (List.mem_cons_of_mem u hw)
    exact ⟨v :: vs, by simp [mapNotes, hv, hvs], by simp [hvlen, hlen]⟩

/-- C4 (amended): for every two-character alphabet whose characters are
distinct, parsing the rendering of an alphabet-consistent pattern with the
same alphabet succeeds and returns a pattern with the same duration sequence
(the spec's notion of pattern equality). -/
theorem c4_amended (a0 a1 : Char) (p : Pattern) (hne : a0 ≠ a1)
    (hp : ∀ u ∈ p.notes, Note.make u.length [a0, a1] = .ok u) :
    ∃ q : Pattern, Pattern.fromString p.str (some [a0, a1]) true = .ok q ∧
      q.durations = p.durations := by
  obtain ⟨vs, hvs, hlen⟩ := mapNotes_roundtrip a0 a1 hne p.notes hp
  refine ⟨⟨vs⟩, ?_, ?_⟩
  · have hdata : (Pattern.str p).data = p.notes.map fun u => u.symbol := rfl
    simp [Pattern.fromString, hdata, hvs]
  · simpa [Pattern.durations] using hlen

/-- C4 (witness): the amended round trip at the concrete alphabet "xy" and the
two-note pattern with durations [1, 2] built under it. -/
theorem c4_witness :
    ∃ q : Pattern,
      Pattern.fromString (Pattern.str ⟨[⟨1, 'x'⟩, ⟨2, 'y'⟩]⟩) (some ['x', 'y']) true = .ok q ∧
      q.durations = Pattern.durations ⟨[⟨1, 'x'⟩, ⟨2, 'y'⟩]⟩ :=
  c4_amended 'x' 'y' ⟨[⟨1, 'x'⟩, ⟨2, 'y'⟩]⟩ (by decide) (by decide)

/-- Any character of a two-character alphabet parses to some note under the
default display alphabet. -/
theorem note_fromString_pair_ok (a0 a1 c : Char) (h : c = a0 ∨ c = a1) :
    ∃ v, Note.fromString c (some [a0, a1]) true = .ok v := by
  by_cases he : c = a1
  · subst he
    exact ⟨Note.two, by simp [Note.fromString, encode_pair_snd, Note.make, decodeMapping,
      defaultReps, Note.two]⟩
  · have hc0 : c = a0 := h.resolve_right he
    subst hc0
    have hne : c ≠ a1 := he
    exact ⟨Note.one, by simp [Note.fromString, encode_pair_fst c a1 hne, Note.make,
      decodeMapping, defaultReps, Note.one]⟩

/-- If every element of a list parses successfully, `mapNotes` returns the
pointwise results in order. -/
theorem mapNotes_ok_spec (f : Char → Except PyErr Note) :
    ∀ (cs : List Char) (vs : List Note), mapNotes f cs = .ok vs →
      vs.length = cs.length ∧
      ∀ i (h1 : i < cs.length) (h2 : i < vs.length),
        f (cs.get ⟨i, h1⟩) = .ok (vs.get ⟨i, h2⟩)
  | [], vs, h => by
    cases h
    exact ⟨rfl, fun i h1 _ => absurd h1 (Nat.not_lt_zero i)⟩
  | c :: cs, vs, h => by
    rcases hf : f c with e | v
    · rw [mapNotes, hf] at h; cases h
    · rcases hrest : mapNotes f cs with e | ws
      · rw [mapNotes, hf, hrest] at h; cases h
      · rw [mapNotes, hf, hrest] at h
        cases h
        obtain ⟨hlen, hget⟩ := mapNotes_ok_spec f cs ws hrest
        refine ⟨by simp [hlen], fun i h1 h2 => ?_⟩
        cases i with
        | zero => simpa using hf
        | succ i => simpa using hget i (by simpa using h1) (by simpa using h2)

/-- Mapping stops at the first unrecognized character: with every character
before it recognized, the whole parse raises `KeyError` carrying that
character. -/
theorem mapNotes_first_bad (a0 a1 c : Char) (suf : List Char) (hc : ¬(c = a0 ∨ c = a1)) :
    ∀ pre : List Char, (∀ x ∈ pre, x = a0 ∨ x = a1) →
      mapNotes (fun ch => Note.fromString ch (some [a0, a1]) true) (pre ++ c :: suf) =
        .error (.keyErrorChar c)
  | [], _ => by
    push_neg at hc
    simp [mapNotes, Note.fromString, encode_pair_none a0 a1 c hc.1 hc.2]
  | x :: pre, h => by
    obtain ⟨v, hv⟩ := note_fromString_pair_ok a0 a1 x (h x (List.mem_cons_self x pre))
    have ih := mapNotes_first_bad a0 a1 c suf hc pre fun y hy => h y (List.mem_cons_of_mem x hy)
    simp [mapNotes, hv, ih]

/-- C8 (amended): `Pattern.from_string` maps each character through
`Note.from_string` left to right, and for an input whose first unrecognized
character (under the two configured symbols) is `c`, it fails with the
`LookupError`-class `KeyError` carrying that character `c` (its value — the
error does not record the character's position). -/
theorem c8_amended (a0 a1 : Char) (pre suf : List Char) (c : Char)
    (hpre : ∀ x ∈ pre, x = a0 ∨ x = a1) (hc : ¬(c = a0 ∨ c = a1)) :
    Pattern.fromString (String.mk (pre ++ c :: suf)) (some [a0, a1]) true =
      .error (.keyErrorChar c) ∧
    PyErr.isLookupError (.keyErrorChar c) = true ∧
    ∀ (s : String) (reps : Option (List Char)) (dd : Bool) (q : Pattern),
      Pattern.fromString s reps dd = .ok q →
        q.notes.length = s.data.length ∧
        ∀ i (h1 : i < s.data.length) (h2 : i < q.notes.length),
          Note.fromString (s.data.get ⟨i, h1⟩) reps dd = .ok (q.notes.get ⟨i, h2⟩) := by
  refine ⟨?_, rfl, fun s reps dd q hq => ?_⟩
  · have hm := mapNotes_first_bad a0 a1 c suf hc pre hpre
    simp [Pattern.fromString, hm]
  · rcases hmn : mapNotes (fun ch => Note.fromString ch reps dd) s.data with e | vs
    · rw [Pattern.fromString, hmn] at hq; cases hq
    · rw [Pattern.fromString, hmn] at hq
      cases hq
      exact mapNotes_ok_spec _ s.data vs hmn

/-- C8 (witness): the amended claim at the default alphabet, parsing "·x–":
the position-1 character 'x' is the first unrecognized one. -/
theorem c8_witness :
    Pattern.fromString (String.mk ['·', 'x', '–']) (some ['·', '–']) true =
      .error (.keyErrorChar 'x') :=
  (c8_amended '·' '–' ['·'] ['–'] 'x' (by decide) (by decide)).1

/-- Membership in `combinations`: exactly the length-`k` subsequences of the
pool. -/
theorem mem_combinations : ∀ (l : List Nat) (k : Nat) (pos : List Nat),
    pos ∈ combinations l k ↔ pos.Sublist l ∧ pos.length = k
  | l, 0, pos => by
    simp only [combinations, List.mem_singleton]
    constructor
    · rintro rfl
      exact ⟨List.nil_sublist l, rfl⟩
    · rintro ⟨-, hl⟩
      exact List.length_eq_zero.mp hl
  | [], k + 1, pos => by
    simp only [combinations, List.not_mem_nil, false_iff, not_and]
    intro hs
    rw [List.sublist_nil.mp hs]
    simp
  | x :: xs, k + 1, pos => by
    have ih1 := mem_combinations xs k
    have ih2 := mem_combinations xs (k + 1)
    simp only [combinations, List.mem_append, List.mem_map]
    constructor
    · rintro (⟨z, hz, rfl⟩ | hmem)
      · obtain ⟨hs, hl⟩ := (ih1 z).mp hz
        exact ⟨hs.cons₂ x, by simp [hl]⟩
      · obtain ⟨hs, hl⟩ := (ih2 pos).mp hmem
        exact ⟨hs.cons x, hl⟩
    · rintro ⟨hs, hl⟩
      cases pos with
      | nil => simp at hl
      | cons y ys =>
        cases hs with
        | cons _ h => exact Or.inr ((ih2 _).mpr ⟨h, hl⟩)
        | cons₂ _ h => exact Or.inl ⟨ys, (ih1 ys).mpr ⟨h, by simpa using hl⟩, rfl⟩

/-- The combination list of a duplicate-free pool is itself duplicate-free. -/
theorem nodup_combinations : ∀ (l : List Nat) (k : Nat),
    l.Nodup → (combinations l k).Nodup
  | _, 0, _ => by simp [combinations]
  | [], _ + 1, _ => by simp [combinations]
  | x :: xs, k + 1, h => by
    obtain ⟨hx, hxs⟩ := List.nodup_cons.mp h
    have ih1 := nodup_combinations xs k hxs
    have ih2 := nodup_combinations xs (k + 1) hxs
    rw [combinations]
    refine List.Nodup.append (ih1.map List.cons_injective) ih2 ?_
    intro a ha hb
    obtain ⟨z, hz, rfl⟩ := List.mem_map.mp ha
    have hsub := ((mem_combinations xs (k + 1) _).mp hb).1
    exact hx (hsub.subset (List.mem_cons_self x z))

/-- Filtering a duplicate-free list by membership in one of its subsequences
recovers that subsequence. -/
theorem filter_mem_sublist {pos l : List Nat} (hs : pos.Sublist l) (hn : l.Nodup) :
    l.filter (fun x => decide (x ∈ pos)) = pos := by
  induction hs with
  | slnil => rfl
  | @cons l₁ l₂ a h ih =>
    obtain ⟨ha, hn2⟩ := List.nodup_cons.mp hn
    have ha' : a ∉ l₁ := fun hmem => ha (h.subset hmem)
    rw [List.filter_cons, if_neg (by simp [ha']), ih hn2]
  | @cons₂ l₁ l₂ a h ih =>
    obtain ⟨ha, hn2⟩ := List.nodup_cons.mp hn
    have hstep : ∀ x ∈ l₂, decide (x ∈ a :: l₁) = decide (x ∈ l₁) := by
      intro x hx
      have hxa : x ≠ a := fun he => ha (he ▸ hx)
      simp [List.mem_cons, hxa]
    rw [List.filter_cons, if_pos (by simp), List.filter_congr hstep, ih hn2]

/-- Duration image of the note list built by `_generate_pattern`'s loop. -/
theorem durations_mkNotes (n : Nat) (pos : List Nat) :
    Pattern.durations ⟨mkNotes n pos⟩ = mask n pos := by
  simp only [Pattern.durations, mkNotes, mask, List.map_map]
  apply List.map_congr_left
  intro i _
  by_cases h : i ∈ pos <;> simp [h, Note.one, Note.two]

/-- Every entry of a mask is a duration 1 or 2. -/
theorem mask_mem_one_two {n : Nat} {pos : List Nat} :
    ∀ x ∈ mask n pos, x = 1 ∨ x = 2 := by
  intro x hx
  simp only [mask, List.mem_map] at hx
  obtain ⟨i, -, rfl⟩ := hx
  by_cases h : i ∈ pos <;> simp [h]

/-- Sum of membership indicators over a list. -/
theorem sum_map_ite (pos : List Nat) :
    ∀ l : List Nat, (l.map fun i => if i ∈ pos then 2 else 1).sum =
      l.length + (l.filter fun x => decide (x ∈ pos)).length
  | [] => rfl
  | a :: l => by
    rw [List.map_cons, List.sum_cons, sum_map_ite pos l, List.filter_cons]
    by_cases h : a ∈ pos <;> simp [h] <;> omega

/-- Total duration of a masked pattern: one unit per position plus one extra
unit per long position. -/
theorem mask_sum {n : Nat} {pos : List Nat} (hs : pos.Sublist (List.range n)) :
    (mask n pos).sum = n + pos.length := by
  rw [mask, sum_map_ite pos (List.range n), filter_mem_sublist hs (List.nodup_range n)]
  simp

/-- A mask over `range n` determines its position set. -/
theorem mask_inj {n : Nat} {pos pos' : List Nat} (h : pos.Sublist (List.range n))
    (h' : pos'.Sublist (List.range n)) (he : mask n pos = mask n pos') : pos = pos' := by
  have hmem : ∀ x ∈ List.range n, decide (x ∈ pos) = decide (x ∈ pos') := by
    intro x hx
    have hlt : x < n := List.mem_range.mp hx
    have e1 : (mask n pos)[x]? = some (if x ∈ pos then 2 else 1) := by
      simp [mask, List.getElem?_map, List.getElem?_range hlt]
    have e2 : (mask n pos')[x]? = some (if x ∈ pos' then 2 else 1) := by
      simp [mask, List.getElem?_map, List.getElem?_range hlt]
    rw [he, e2] at e1
    have := Option.some.inj e1
    by_cases hp : x ∈ pos <;> by_cases hp' : x ∈ pos' <;> simp_all
  calc pos = (List.range n).filter (fun x => decide (x ∈ pos)) :=
        (filter_mem_sublist h (List.nodup_range n)).symm
    _ = (List.range n).filter (fun x => decide (x ∈ pos')) := List.filter_congr hmem
    _ = pos' := filter_mem_sublist h' (List.nodup_range n)

/-- The long positions of a duration list are positions of its length range. -/
theorem twoPositions_sublist : ∀ l : List Nat,
    (twoPositions l).Sublist (List.range l.length)
  | [] => List.Sublist.refl []
  | a :: l => by
    have ih := twoPositions_sublist l
    have hsucc : (Nat.succ : Nat → Nat) = (· + 1) := funext fun x => rfl
    rw [twoPositions, List.length_cons, List.range_succ_eq_map, hsucc]
    by_cases h : a = 2
    · rw [if_pos h]
      exact (ih.map _).cons₂ 0
    · rw [if_neg h]
      exact (ih.map _).cons 0

/-- The number of long positions is the number of 2-entries. -/
theorem twoPositions_length : ∀ l : List Nat, (twoPositions l).length = l.count 2
  | [] => rfl
  | a :: l => by
    have ih := twoPositions_length l
    by_cases ha : a = 2 <;> simp [twoPositions, ha, List.count_cons, ih]

/-- A 1/2-valued list sums to its length plus its number of 2-entries. -/
theorem sum_one_two : ∀ l : List Nat, (∀ x ∈ l, x = 1 ∨ x = 2) →
    l.sum = l.length + l.count 2
  | [] => fun _ => rfl
  | a :: l => fun h => by
    have ih := sum_one_two l fun x hx => h x (List.mem_cons_of_mem a hx)
    rcases h a (List.mem_cons_self a l) with h1 | h1 <;>
      simp [h1, List.count_cons, ih] <;> omega

/-- Unfolding a mask whose position set contains 0. -/
theorem mask_succ_cons2 (n : Nat) (tp : List Nat) :
    mask (n + 1) (0 :: tp.map (· + 1)) = 2 :: mask n tp := by
  have hsucc : (Nat.succ : Nat → Nat) = (· + 1) := funext fun x => rfl
  rw [mask, List.range_succ_eq_map, hsucc, List.map_cons, List.map_map]
  congr 1
  rw [mask]
  apply List.map_congr_left
  intro i _
  show (if (i + 1 : Nat) ∈ 0 :: tp.map (· + 1) then 2 else 1) = if i ∈ tp then 2 else 1
  have hm : ((i + 1 : Nat) ∈ 0 :: tp.map (· + 1)) ↔ i ∈ tp := by
    simp
  rw [if_congr hm rfl rfl]

/-- Unfolding a mask whose position set avoids 0. -/
theorem mask_succ_cons1 (n : Nat) (tp : List Nat) :
    mask (n + 1) (tp.map (· + 1)) = 1 :: mask n tp := by
  have hsucc : (Nat.succ : Nat → Nat) = (· + 1) := funext fun x => rfl
  rw [mask, List.range_succ_eq_map, hsucc, List.map_cons, List.map_map]
  congr 1
  · rw [if_neg (by simp)]
  · rw [mask]
    apply List.map_congr_left
    intro i _
    show (if (i + 1 : Nat) ∈ tp.map (· + 1) then 2 else 1) = if i ∈ tp then 2 else 1
    have hm : ((i + 1 : Nat) ∈ tp.map (· + 1)) ↔ i ∈ tp := by
      simp
    rw [if_congr hm rfl rfl]


/-- Re-masking the long positions of a 1/2-valued list recovers the list. -/
theorem mask_twoPositions : ∀ l : List Nat, (∀ x ∈ l, x = 1 ∨ x = 2) →
    mask l.length (twoPositions l) = l
  | [] => fun _ => rfl
  | a :: l => fun h => by
    have ih := mask_twoPositions l fun x hx => h x (List.mem_cons_of_mem a hx)
    rcases h a (List.mem_cons_self a l) with h1 | h2
    · have hne : ¬(a = 2) := by omega
      rw [twoPositions, if_neg hne, List.length_cons, mask_succ_cons1, ih, h1]
    · rw [twoPositions, if_pos h2, List.length_cons, mask_succ_cons2, ih, h2]

/-- `range(N, -1, -2)` for a nonnegative `N`, in closed form. -/
theorem pyRangeDown2_natCast (N : Nat) :
    pyRangeDown2 ↑N = (List.range (N / 2 + 1)).map fun k : Nat => (N : Int) - 2 * (k : Int) := by
  rw [pyRangeDown2, if_neg (by omega)]
  simp

/-- `_note_counts` for a nonnegative length: pairs `(N - 2d, d)` for
`d = 0 .. N/2`. -/
theorem noteCounts_natCast (N : Nat) :
    noteCounts ↑N = (List.range (N / 2 + 1)).map fun d : Nat => ((N : Int) - 2 * (d : Int), d) := by
  rw [noteCounts, pyRangeDown2_natCast]
  apply List.ext_getElem
  · simp
  · intro i h1 h2
    simp [List.enum, List.getElem_enumFrom]

/-- The lazy chain built by `_all_patterns` for a nonnegative length, with the
index bookkeeping unfolded. -/
theorem allPatterns_natCast (N : Nat) : allPatterns ↑N = allPatternsNat N := by
  rw [allPatterns, allPatternsNat, noteCounts_natCast, List.map_map]
  congr 1
  apply List.map_congr_left
  intro d _
  have he : ((N : Int) - 2 * (d : Int)).toNat = N - 2 * d := by omega
  simp [Function.comp, he]

/-- Duration lists of one group of the enumeration are exactly the masks of
the group's position combinations. -/
theorem generatePattern_durations (s d : Nat) :
    (generatePattern s d).map Pattern.durations =
      (combinations (List.range (s + d)) d).map (mask (s + d)) := by
  rw [generatePattern, List.map_map]
  apply List.map_congr_left
  intro pos _
  exact durations_mkNotes _ _

/-- Completeness and soundness of the enumeration: the duration sequences of
`_all_patterns` are exactly the 1/2-compositions of N. -/
theorem mem_allPatternsNat (N : Nat) (dl : List Nat) :
    dl ∈ (allPatternsNat N).map Pattern.durations ↔
      (∀ x ∈ dl, x = 1 ∨ x = 2) ∧ dl.sum = N := by
  rw [allPatternsNat, List.map_flatten, List.map_map]
  simp only [List.mem_flatten, List.mem_map, List.mem_range, Function.comp]
  constructor
  · rintro ⟨gl, ⟨d, hd, rfl⟩, hmem⟩
    rw [generatePattern_durations] at hmem
    obtain ⟨pos, hpos, rfl⟩ := List.mem_map.mp hmem
    obtain ⟨hsub, hlen⟩ := (mem_combinations _ _ _).mp hpos
    have hsum := mask_sum hsub
    have hle : 2 * d ≤ N := by omega
    refine ⟨mask_mem_one_two, ?_⟩
    rw [hsum, hlen]
    omega
  · rintro ⟨h12, hsum⟩
    have hcl := sum_one_two dl h12
    have hcle := dl.count_le_length 2
    refine ⟨(generatePattern (N - 2 * dl.count 2) (dl.count 2)).map Pattern.durations,
      ⟨dl.count 2, by omega, rfl⟩, ?_⟩
    rw [generatePattern_durations]
    have hn : N - 2 * dl.count 2 + dl.count 2 = dl.length := by omega
    rw [hn]
    apply List.mem_map.mpr
    refine ⟨twoPositions dl, ?_, ?_⟩
    · exact (mem_combinations _ _ _).mpr ⟨twoPositions_sublist dl, twoPositions_length dl⟩
    · exact mask_twoPositions dl h12

/-- The enumeration repeats no duration sequence: within a group, distinct
position combinations give distinct masks; across groups, the number of notes
`N - d` differs. -/
theorem nodup_allPatternsNat (N : Nat) :
    ((allPatternsNat N).map Pattern.durations).Nodup := by
  rw [allPatternsNat, List.map_flatten, List.map_map]
  rw [List.nodup_flatten]
  constructor
  · intro gl hgl
    simp only [List.mem_map, List.mem_range, Function.comp] at hgl
    obtain ⟨d, hd, rfl⟩ := hgl
    rw [generatePattern_durations]
    refine List.Nodup.map_on ?_ (nodup_combinations _ _ (List.nodup_range _))
    intro pos hpos pos' hpos' he
    exact mask_inj ((mem_combinations _ _ _).mp hpos).1 ((mem_combinations _ _ _).mp hpos').1 he
  · have hlt := List.pairwise_lt_range (N / 2 + 1)
    rw [List.pairwise_map]
    refine hlt.imp_of_mem ?_
    intro d d' hd hd' hdd'
    simp only [List.mem_range] at hd hd'
    intro dl hdl hdl'
    rw [Function.comp, generatePattern_durations] at hdl hdl'
    obtain ⟨pos, hpos, rfl⟩ := List.mem_map.mp hdl
    obtain ⟨pos', hpos', hmask⟩ := List.mem_map.mp hdl'
    have hl1 : (mask (N - 2 * d + d) pos).length = N - 2 * d + d := by simp [mask]
    have hl2 : (mask (N - 2 * d' + d') pos').length = N - 2 * d' + d' := by simp [mask]
    rw [hmask] at hl2
    omega

/-- Within a group, `itertools.combinations` emits the position sets in
strictly ascending lexicographic order. -/
theorem pairwise_lex_combinations : ∀ (l : List Nat) (k : Nat),
    l.Pairwise (· < ·) → (combinations l k).Pairwise (List.Lex (· < ·))
  | _, 0, _ => by simp [combinations]
  | [], _ + 1, _ => by simp [combinations]
  | x :: xs, k + 1, h => by
    obtain ⟨hx, hxs⟩ := List.pairwise_cons.mp h
    have ih1 := pairwise_lex_combinations xs k hxs
    have ih2 := pairwise_lex_combinations xs (k + 1) hxs
    rw [combinations]
    refine List.pairwise_append.mpr ⟨?_, ih2, ?_⟩
    · rw [List.pairwise_map]
      exact ih1.imp fun hab => List.Lex.cons hab
    · intro a ha b hb
      obtain ⟨z, hz, rfl⟩ := List.mem_map.mp ha
      obtain ⟨hsb, hlb⟩ := (mem_combinations xs (k + 1) b).mp hb
      cases b with
      | nil => simp at hlb
      | cons y ys => exact List.Lex.rel (hx y (hsb.subset (List.mem_cons_self y ys)))

/-- Membership in the recursive composition list. -/
theorem mem_comps : ∀ (n : Nat) (l : List Nat),
    l ∈ comps n ↔ (∀ x ∈ l, x = 1 ∨ x = 2) ∧ l.sum = n
  | 0, l => by
    simp only [comps, List.mem_singleton]
    constructor
    · rintro rfl
      exact ⟨by simp, rfl⟩
    · rintro ⟨h12, hsum⟩
      cases l with
      | nil => rfl
      | cons a t =>
        rcases h12 a (List.mem_cons_self a t) with h | h <;> simp [h] at hsum
  | 1, l => by
    simp only [comps, List.mem_singleton]
    constructor
    · rintro rfl
      exact ⟨by simp, rfl⟩
    · rintro ⟨h12, hsum⟩
      cases l with
      | nil => simp at hsum
      | cons a t =>
        cases t with
        | nil =>
          rcases h12 a (List.mem_cons_self a []) with h | h
          · simp [h]
          · exfalso
            simp [h] at hsum
        | cons b u =>
          exfalso
          rcases h12 a (List.mem_cons_self a _) with h | h <;>
            rcases h12 b (List.mem_cons_of_mem a (List.mem_cons_self b u)) with h' | h' <;>
              simp [h, h'] at hsum <;> omega
  | n + 2, l => by
    have ih1 := mem_comps (n + 1)
    have ih2 := mem_comps n
    simp only [comps, List.mem_append, List.mem_map]
    constructor
    · rintro (⟨z, hz, rfl⟩ | ⟨z, hz, rfl⟩)
      · obtain ⟨h12, hsum⟩ := (ih1 z).mp hz
        refine ⟨?_, by simp [hsum] <;> omega⟩
        intro x hx
        rcases List.mem_cons.mp hx with rfl | hx
        · exact Or.inl rfl
        · exact h12 x hx
      · obtain ⟨h12, hsum⟩ := (ih2 z).mp hz
        refine ⟨?_, by simp [hsum] <;> omega⟩
        intro x hx
        rcases List.mem_cons.mp hx with rfl | hx
        · exact Or.inr rfl
        · exact h12 x hx
    · rintro ⟨h12, hsum⟩
      cases l with
      | nil => simp at hsum
      | cons a t =>
        have ht12 : ∀ x ∈ t, x = 1 ∨ x = 2 := fun x hx => h12 x (List.mem_cons_of_mem a hx)
        rcases h12 a (List.mem_cons_self a t) with h | h
        · subst h
          refine Or.inl ⟨t, (ih1 t).mpr ⟨ht12, ?_⟩, rfl⟩
          simp at hsum
          omega
        · subst h
          refine Or.inr ⟨t, (ih2 t).mpr ⟨ht12, ?_⟩, rfl⟩
          simp at hsum
          omega

/-- The recursive composition list has no duplicates. -/
theorem nodup_comps : ∀ n : Nat, (comps n).Nodup
  | 0 => by simp [comps]
  | 1 => by simp [comps]
  | n + 2 => by
    have ih1 := nodup_comps (n + 1)
    have ih2 := nodup_comps n
    rw [comps]
    refine List.Nodup.append (ih1.map List.cons_injective) (ih2.map List.cons_injective) ?_
    intro a ha hb
    obtain ⟨z, _, rfl⟩ := List.mem_map.mp ha
    obtain ⟨w, _, hw⟩ := List.mem_map.mp hb
    cases hw

/-- The number of 1/2-compositions satisfies the Fibonacci recurrence. -/
theorem length_comps : ∀ n : Nat, (comps n).length = Nat.fib (n + 1)
  | 0 => rfl
  | 1 => rfl
  | n + 2 => by
    have ih1 := length_comps (n + 1)
    have ih2 := length_comps n
    rw [comps]
    simp only [List.length_append, List.length_map, ih1, ih2]
    have hf : Nat.fib (n + 2 + 1) = Nat.fib (n + 1) + Nat.fib (n + 1 + 1) := Nat.fib_add_two
    omega

/-- C1: the pattern count is claimed to be exactly `Fib(N+1)` (with
`Fib(1) = Fib(2) = 1`) for every N ≥ 0.  The enumeration really does contain
exactly `Fib(N+1)` patterns — this theorem proves it — but the count the code
*reports* (`len`, via `_fib`'s floating-point Binet formula) drifts from the
exact integer for large N (first at N = 71), so the claim is right and the
reporting code is the bug, as the spec's own design notes anticipate. -/
theorem c1_true_count (N : Nat) : (allPatterns ↑N).length = Nat.fib (N + 1) := by
  have hperm : ((allPatterns ↑N).map Pattern.durations).Perm (comps N) := by
    rw [List.perm_ext_iff_of_nodup
      (by rw [allPatterns_natCast]; exact nodup_allPatternsNat N) (nodup_comps N)]
    intro dl
    rw [allPatterns_natCast, mem_allPatternsNat, mem_comps]
  have hlen := hperm.length_eq
  rw [List.length_map, length_comps] at hlen
  exact hlen

/-- C2 (amended): iterating a fresh `PatternGenerator(N)` yields exactly the
1/2-duration sequences summing to N, each exactly once, grouped by the number
of long units d ascending with the d long positions chosen in ascending
lexicographic order within each group; for N = 3 the rendered order is
`["···", "–·", "·–"]` (the claim's example order "···", "·–", "–·" is wrong —
see the counterexample). -/
theorem c2_amended (N : Nat) :
    ((allPatterns ↑N).map Pattern.durations).Nodup ∧
    (∀ dl : List Nat, dl ∈ (allPatterns ↑N).map Pattern.durations ↔
      (∀ x ∈ dl, x = 1 ∨ x = 2) ∧ dl.sum = N) ∧
    allPatterns ↑N =
      ((List.range (N / 2 + 1)).map fun d => generatePattern (N - 2 * d) d).flatten ∧
    (∀ d : Nat, (combinations (List.range (N - 2 * d + d)) d).Pairwise (List.Lex (· < ·))) ∧
    (allPatterns 3).map Pattern.str = ["···", "–·", "·–"] := by
  refine ⟨?_, ?_, allPatterns_natCast N, ?_, by decide⟩
  · rw [allPatterns_natCast]
    exact nodup_allPatternsNat N
  · intro dl
    rw [allPatterns_natCast]
    exact mem_allPatternsNat N dl
  · intro d
    exact pairwise_lex_combinations _ _ (List.pairwise_lt_range _)

end Drumming
